import Mathlib

/-!
Shallow embedding of the `errgroup` package (jordanhasgul/errgroup,
file `errgroup.go`), together with theorems settling the specification
claims about it.

The package manages goroutines running functions of type `func() error`.
We embed it as a small-step transition system:

* `GState` mirrors the fields of `Group` (errgroup.go lines 16-24);
* a launched goroutine is a `Phase` recording how far through the body of
  `doGo` (lines 106-130) it has run; its function `f` is represented by the
  value it eventually returns (`none` = nil, `some e` = the error `e`);
* every atomic action of the code — an admission call (`Go`, `TryGo`),
  a `Wait` call, and the individual statements of the failure path inside
  `doGo` — is an event `Ev`, and `step` gives its effect on the state.
  An interleaved execution of the program is a list of events; `run`
  executes it.  `step` returns `none` when the event cannot occur (its
  thread would still be blocked, or no goroutine is at that point of its
  body), so quantifying over all event lists that `run` accepts quantifies
  over all interleavings.

Blocking calls (`Go` on a full semaphore, `Wait` while goroutines are
pending) are modelled at their linearization point: the event occurs when
the call completes.
-/

namespace Errgroup

/-- Value returned by a task function `f : func() error`: `none` models a
nil error, `some e` models the non-nil error numbered `e`. -/
abbrev TaskRet := Option Nat

/-- How far through the body of `doGo`'s goroutine (errgroup.go lines
108-129) one launched goroutine has run:

* `running r` — `f` has not yet returned; it will return `r`;
* `passedCheck e` — `f` returned the error `e` and the goroutine executed
  the lock-free fast check `!g.cancelled.Load()` (line 119) seeing `false`;
* `invoked e` — the goroutine additionally executed `g.cancel()`
  (lines 120-122; only reachable when a cancel function is bound);
* `finishing failed` — the goroutine has finished the body (appending its
  error to `g.err` if it reached the append at line 126, or skipping the
  whole block because `f` returned nil or the fast check saw `true`), and
  has not yet run the deferred `wg.Done()` / semaphore release
  (lines 109-115); `failed` records whether `f` returned a non-nil error;
* `done failed` — the deferred function has run; the goroutine is gone. -/
inductive Phase where
  | running (r : TaskRet)
  | passedCheck (e : Nat)
  | invoked (e : Nat)
  | finishing (failed : Bool)
  | done (failed : Bool)
  deriving DecidableEq, Repr

/-- `true` once the goroutine has run its deferred `wg.Done()`. -/
def Phase.isDone : Phase → Bool
  | .done _ => true
  | _ => false

/-- The goroutine's function returned a non-nil error. -/
def Phase.isFailed : Phase → Bool
  | .passedCheck _ => true
  | .invoked _ => true
  | .finishing b => b
  | .done b => b
  | .running _ => false

/-- The goroutine is inside the failure path of `doGo` after passing the
fast check and before appending its error to `g.err`. -/
def Phase.isMid : Phase → Bool
  | .passedCheck _ => true
  | .invoked _ => true
  | _ => false

/-- The goroutine has appended its error to `g.err` (it reached line 126 of
errgroup.go): after passing the fast check the code appends
unconditionally, so this holds exactly for failed goroutines past the
`isMid` window. -/
def Phase.hasAppended : Phase → Bool
  | .finishing b => b
  | .done b => b
  | _ => false

/-- The goroutine can never reach the error-append: its function returns
(or returned) nil. -/
def Phase.neverFails : Phase → Bool
  | .running none => true
  | .finishing false => true
  | .done false => true
  | _ => false

/-- The state of a `Group` (errgroup.go lines 16-24).

* `hasCancel` — whether `g.cancel != nil` (a `cancelConfigurer` was applied);
* `hasSem` / `limit` — whether `g.semaphore != nil`, and `cap(g.semaphore)`;
* `cancelled` — the atomic flag `g.cancelled`;
* `cancelCalls` — how many times the function stored in `g.cancel` has been
  invoked (i.e. how many times the wrapped `context.CancelFunc` was called);
* `err` — `g.err`, as the list of task errors appended to it in order
  (`multierr.Append` grows the aggregate by one error per call);
* `tasks` — one `Phase` per goroutine launched through `doGo`, in launch
  order.  `sync.WaitGroup`'s counter and the number of semaphore permits
  held are both determined by it: a permit is sent before `doGo` (lines
  73-75, 92-100) and received in the deferred function (lines 112-114), so
  both equal the number of not-yet-`done` entries. -/
structure GState where
  hasCancel : Bool
  hasSem : Bool
  limit : Nat
  cancelled : Bool
  cancelCalls : Nat
  err : List Nat
  tasks : List Phase
  deriving DecidableEq, Repr

/-- The `sync.WaitGroup` counter: goroutines launched and not yet done. -/
def pending (s : GState) : Nat := s.tasks.countP (fun p => !p.isDone)

/-- The semaphore cannot accept another send without blocking:
`g.semaphore != nil` and all `cap(g.semaphore)` permits are held. -/
def full (s : GState) : Bool := s.hasSem && s.limit ≤ pending s

/-- The zero value `Group{}` (errgroup.go line 35 and the zero `Group`). -/
def zeroGroup : GState :=
  { hasCancel := false, hasSem := false, limit := 0, cancelled := false
    cancelCalls := 0, err := [], tasks := [] }

/-- A `Configurer` value (errgroup.go lines 28-30): either the
`cancelConfigurer` produced by `WithCancel` (lines 166-169) or the
`limitConfigurer{limit}` produced by `WithLimit limit` (lines 183-185;
the limit is a `uint`, hence a `Nat`). -/
inductive Configurer where
  | withCancel
  | withLimit (limit : Nat)
  deriving DecidableEq, Repr

/-- `configure` (errgroup.go lines 153-158 and 177-179): the
`cancelConfigurer` stores a cancel function into `group.cancel`; the
`limitConfigurer` allocates `group.semaphore` with capacity `limit`. -/
def configure (s : GState) : Configurer → GState
  | .withCancel => { s with hasCancel := true }
  | .withLimit l => { s with hasSem := true, limit := l }

/-- `New` (errgroup.go lines 34-41): start from the zero `Group` and apply
the configurers in order. -/
def New (cfgs : List Configurer) : GState := cfgs.foldl configure zeroGroup

/-- The error value returned by an admission call (`Go` / `TryGo`):
`ok` for a nil return, otherwise the `&CancelError{}` of lines 70/89 or
the `&LimitError{limit: cap(g.semaphore)}` of lines 96-98. -/
inductive AdmitRes where
  | ok
  | cancelErr
  | limitErr (limit : Nat)
  deriving DecidableEq, Repr

/-- `doGo` (errgroup.go lines 106-130) as seen by the launching call:
`wg.Add(1)` and the `go` statement append a new goroutine in phase
`running r`, where `r` is what its function will return. -/
def launch (s : GState) (r : TaskRet) : GState :=
  { s with tasks := s.tasks ++ [.running r] }

/-- The function stored in `group.cancel` by `cancelConfigurer.configure`
(errgroup.go lines 154-157): `group.cancelled.Store(true)` followed by the
wrapped `context.CancelFunc`. -/
def fireCancel (s : GState) : GState :=
  { s with cancelled := true, cancelCalls := s.cancelCalls + 1 }

/-- `Go` (errgroup.go lines 68-79) at its linearization point.  If
`g.cancelled.Load()` is true it returns a `CancelError` without launching.
Otherwise it sends on the semaphore (blocking — the result is `none` while
the semaphore is full, meaning the call has not yet completed) and runs
`doGo`, returning nil. -/
def Go (s : GState) (r : TaskRet) : Option (GState × AdmitRes) :=
  if s.cancelled then some (s, .cancelErr)
  else if full s then none
  else some (launch s r, .ok)

/-- `TryGo` (errgroup.go lines 87-104).  If `g.cancelled.Load()` is true it
returns a `CancelError`; otherwise it attempts a non-blocking semaphore
send, returning `&LimitError{limit: cap(g.semaphore)}` when the `select`
hits `default`, and otherwise runs `doGo` and returns nil. -/
def TryGo (s : GState) (r : TaskRet) : GState × AdmitRes :=
  if s.cancelled then (s, .cancelErr)
  else if full s then (s, .limitErr s.limit)
  else (launch s r, .ok)

/-- `Wait` (errgroup.go lines 135-145) at its linearization point: enabled
once `wg.Wait()` can return (no pending goroutine); then, if
`g.cancel != nil`, it invokes `g.cancel()` unconditionally, and finally
returns `g.err` (read under `errLock`). -/
def Wait (s : GState) : Option (GState × List Nat) :=
  if pending s = 0 then
    let s' := if s.hasCancel then fireCancel s else s
    some (s', s'.err)
  else none

/-- `s.tasks[t]?`: the phase of goroutine `t`, if it was launched. -/
def phaseAt (s : GState) (t : Nat) : Option Phase := s.tasks[t]?

/-- Replace the phase of goroutine `t`. -/
def setPhase (s : GState) (t : Nat) (p : Phase) : GState :=
  { s with tasks := s.tasks.set t p }

/-- Goroutine `t`'s function returns the non-nil error `e`, and the
goroutine executes the fast check `!g.cancelled.Load()` (errgroup.go
line 119): if the flag is already true the whole failure block is skipped
(the error is dropped); otherwise the goroutine proceeds into it. -/
def stepFail (s : GState) (t : Nat) : Option GState :=
  match phaseAt s t with
  | some (.running (some e)) =>
      if s.cancelled then some (setPhase s t (.finishing true))
      else some (setPhase s t (.passedCheck e))
  | _ => none

/-- Goroutine `t`'s function returns nil: the `err != nil` test at line 118
fails and the body is done. -/
def stepSucceed (s : GState) (t : Nat) : Option GState :=
  match phaseAt s t with
  | some (.running none) => some (setPhase s t (.finishing false))
  | _ => none

/-- Goroutine `t` executes `if g.cancel != nil { g.cancel() }` (errgroup.go
lines 120-122) after passing the fast check.  Only a separate step when a
cancel function is bound; `g.cancel()` stores `true` into `g.cancelled` and
calls the wrapped `CancelFunc` (lines 154-157).  Note: this happens before
`errLock` is acquired, and `g.cancelled` is not re-checked. -/
def stepInvoke (s : GState) (t : Nat) : Option GState :=
  match phaseAt s t with
  | some (.passedCheck e) =>
      if s.hasCancel then some (fireCancel (setPhase s t (.invoked e))) else none
  | _ => none

/-- Goroutine `t` acquires `errLock` and executes
`g.err = multierr.Append(g.err, err)` (errgroup.go lines 124-126), then
releases the lock (the deferred unlock runs before the outer deferred
function).  When no cancel function is bound the goroutine comes here
directly from the fast check. -/
def stepAppend (s : GState) (t : Nat) : Option GState :=
  match phaseAt s t with
  | some (.invoked e) =>
      some { setPhase s t (.finishing true) with err := s.err ++ [e] }
  | some (.passedCheck e) =>
      if s.hasCancel then none
      else some { setPhase s t (.finishing true) with err := s.err ++ [e] }
  | _ => none

/-- Goroutine `t` runs the deferred function (errgroup.go lines 109-115):
`wg.Done()` and the semaphore receive. -/
def stepFinish (s : GState) (t : Nat) : Option GState :=
  match phaseAt s t with
  | some (.finishing b) => some (setPhase s t (.done b))
  | _ => none

/-- One atomic event of an interleaved execution: an admission call
completing (carrying the return value of the launched function), one
statement of a launched goroutine, or a `Wait` call completing. -/
inductive Ev where
  | go (r : TaskRet)
  | tryGo (r : TaskRet)
  | fail (t : Nat)
  | succeed (t : Nat)
  | invoke (t : Nat)
  | append (t : Nat)
  | finish (t : Nat)
  | wait
  deriving DecidableEq, Repr

/-- Effect of one event on the group state; `none` when the event cannot
occur now (the call would still be blocked, or goroutine `t` is not at
that statement). -/
def step (s : GState) : Ev → Option GState
  | .go r => (Go s r).map Prod.fst
  | .tryGo r => some (TryGo s r).fst
  | .fail t => stepFail s t
  | .succeed t => stepSucceed s t
  | .invoke t => stepInvoke s t
  | .append t => stepAppend s t
  | .finish t => stepFinish s t
  | .wait => (Wait s).map Prod.fst

/-- Execute an interleaving: build the group with `New cfgs`, then apply
the events in order.  `some s` exactly when every event was possible. -/
def run (cfgs : List Configurer) (evs : List Ev) : Option GState :=
  List.foldlM step (New cfgs) evs

/-! ### Basic facts about the state constructors -/

@[simp] theorem setPhase_hasCancel (s : GState) (t : Nat) (p : Phase) :
    (setPhase s t p).hasCancel = s.hasCancel := rfl
@[simp] theorem setPhase_hasSem (s : GState) (t : Nat) (p : Phase) :
    (setPhase s t p).hasSem = s.hasSem := rfl
@[simp] theorem setPhase_limit (s : GState) (t : Nat) (p : Phase) :
    (setPhase s t p).limit = s.limit := rfl
@[simp] theorem setPhase_cancelled (s : GState) (t : Nat) (p : Phase) :
    (setPhase s t p).cancelled = s.cancelled := rfl
@[simp] theorem setPhase_cancelCalls (s : GState) (t : Nat) (p : Phase) :
    (setPhase s t p).cancelCalls = s.cancelCalls := rfl
@[simp] theorem setPhase_err (s : GState) (t : Nat) (p : Phase) :
    (setPhase s t p).err = s.err := rfl
@[simp] theorem setPhase_tasks (s : GState) (t : Nat) (p : Phase) :
    (setPhase s t p).tasks = s.tasks.set t p := rfl

@[simp] theorem launch_hasCancel (s : GState) (r : TaskRet) :
    (launch s r).hasCancel = s.hasCancel := rfl
@[simp] theorem launch_hasSem (s : GState) (r : TaskRet) :
    (launch s r).hasSem = s.hasSem := rfl
@[simp] theorem launch_limit (s : GState) (r : TaskRet) :
    (launch s r).limit = s.limit := rfl
@[simp] theorem launch_cancelled (s : GState) (r : TaskRet) :
    (launch s r).cancelled = s.cancelled := rfl
@[simp] theorem launch_cancelCalls (s : GState) (r : TaskRet) :
    (launch s r).cancelCalls = s.cancelCalls := rfl
@[simp] theorem launch_err (s : GState) (r : TaskRet) :
    (launch s r).err = s.err := rfl
@[simp] theorem launch_tasks (s : GState) (r : TaskRet) :
    (launch s r).tasks = s.tasks ++ [.running r] := rfl

@[simp] theorem fireCancel_hasCancel (s : GState) :
    (fireCancel s).hasCancel = s.hasCancel := rfl
@[simp] theorem fireCancel_hasSem (s : GState) :
    (fireCancel s).hasSem = s.hasSem := rfl
@[simp] theorem fireCancel_limit (s : GState) :
    (fireCancel s).limit = s.limit := rfl
@[simp] theorem fireCancel_cancelled (s : GState) :
    (fireCancel s).cancelled = true := rfl
@[simp] theorem fireCancel_cancelCalls (s : GState) :
    (fireCancel s).cancelCalls = s.cancelCalls + 1 := rfl
@[simp] theorem fireCancel_err (s : GState) :
    (fireCancel s).err = s.err := rfl
@[simp] theorem fireCancel_tasks (s : GState) :
    (fireCancel s).tasks = s.tasks := rfl

/-! ### Inversion lemmas: what each event does when it is possible -/

theorem go_inv {s s' : GState} {r : TaskRet} (h : step s (.go r) = some s') :
    (s.cancelled = true ∧ s' = s) ∨
      (s.cancelled = false ∧ full s = false ∧ s' = launch s r) := by
  simp only [step, Go] at h
  split at h
  · simp only [Option.map_some', Option.some.injEq] at h
    exact Or.inl ⟨by assumption, h.symm⟩
  · split at h
    · simp at h
    · simp only [Option.map_some', Option.some.injEq] at h
      exact Or.inr ⟨by simp_all, by simp_all, h.symm⟩

theorem tryGo_inv {s s' : GState} {r : TaskRet} (h : step s (.tryGo r) = some s') :
    (s.cancelled = true ∧ s' = s) ∨
      (s.cancelled = false ∧ full s = true ∧ s' = s) ∨
      (s.cancelled = false ∧ full s = false ∧ s' = launch s r) := by
  simp only [step, TryGo, Option.some.injEq] at h
  split at h
  · exact Or.inl ⟨by assumption, by simp_all⟩
  · split at h
    · exact Or.inr (Or.inl ⟨by simp_all, by assumption, by simp_all⟩)
    · exact Or.inr (Or.inr ⟨by simp_all, by simp_all, by simp_all⟩)

theorem fail_inv {s s' : GState} {t : Nat} (h : step s (.fail t) = some s') :
    ∃ e, phaseAt s t = some (.running (some e)) ∧
      ((s.cancelled = true ∧ s' = setPhase s t (.finishing true)) ∨
        (s.cancelled = false ∧ s' = setPhase s t (.passedCheck e))) := by
  simp only [step, stepFail] at h
  split at h
  next e heq =>
    refine ⟨e, heq, ?_⟩
    split at h
    · exact Or.inl ⟨by assumption, by simp_all⟩
    · exact Or.inr ⟨by simp_all, by simp_all⟩
  next => simp at h

theorem succeed_inv {s s' : GState} {t : Nat} (h : step s (.succeed t) = some s') :
    phaseAt s t = some (.running none) ∧ s' = setPhase s t (.finishing false) := by
  simp only [step, stepSucceed] at h
  split at h
  next heq => exact ⟨heq, by simp_all⟩
  next => simp at h

theorem invoke_inv {s s' : GState} {t : Nat} (h : step s (.invoke t) = some s') :
    ∃ e, phaseAt s t = some (.passedCheck e) ∧ s.hasCancel = true ∧
      s' = fireCancel (setPhase s t (.invoked e)) := by
  simp only [step, stepInvoke] at h
  split at h
  next e heq =>
    split at h
    · exact ⟨e, heq, by assumption, by simp_all⟩
    · simp at h
  next => simp at h

theorem append_inv {s s' : GState} {t : Nat} (h : step s (.append t) = some s') :
    ∃ e, s' = { setPhase s t (.finishing true) with err := s.err ++ [e] } ∧
      (phaseAt s t = some (.invoked e) ∨
        (phaseAt s t = some (.passedCheck e) ∧ s.hasCancel = false)) := by
  simp only [step, stepAppend] at h
  split at h
  next e heq => exact ⟨e, by simp_all, Or.inl heq⟩
  next e heq =>
    split at h
    · simp at h
    · exact ⟨e, by simp_all, Or.inr ⟨heq, by simp_all⟩⟩
  next => simp at h

theorem finish_inv {s s' : GState} {t : Nat} (h : step s (.finish t) = some s') :
    ∃ b, phaseAt s t = some (.finishing b) ∧ s' = setPhase s t (.done b) := by
  simp only [step, stepFinish] at h
  split at h
  next b heq => exact ⟨b, heq, by simp_all⟩
  next => simp at h

theorem wait_inv {s s' : GState} (h : step s .wait = some s') :
    pending s = 0 ∧
      ((s.hasCancel = true ∧ s' = fireCancel s) ∨ (s.hasCancel = false ∧ s' = s)) := by
  simp only [step, Wait] at h
  split at h
  next hp =>
    refine ⟨hp, ?_⟩
    by_cases hc : s.hasCancel
    · exact Or.inl ⟨hc, by simp_all⟩
    · exact Or.inr ⟨by simp_all, by simp_all⟩
  next => simp at h

/-! ### Counting helpers -/

/-- Addition form of `List.countP_set`: replacing the element at `i` trades
its contribution for the new element's. -/
theorem countP_set_add {α : Type} (P : α → Bool) :
    ∀ (l : List α) (i : Nat) (b : α), i < l.length →
      ∀ a, l[i]? = some a →
        (l.set i b).countP P + (if P a then 1 else 0) =
          l.countP P + (if P b then 1 else 0) := by
  intro l
  induction l with
  | nil => intro i b h; simp at h
  | cons x xs ih =>
    intro i b h a ha
    cases i with
    | zero =>
      simp only [List.getElem?_cons_zero, Option.some.injEq] at ha
      subst ha
      simp only [List.set_cons_zero, List.countP_cons]
      omega
    | succ n =>
      simp only [List.getElem?_cons_succ] at ha
      simp only [List.length_cons, Nat.succ_lt_succ_iff] at h
      simp only [List.set_cons_succ, List.countP_cons]
      have := ih n b h a ha
      omega

/-- Unpack `phaseAt s t = some p`. -/
theorem phaseAt_elim {s : GState} {t : Nat} {p : Phase} (h : phaseAt s t = some p) :
    t < s.tasks.length ∧ s.tasks[t]? = some p ∧ p ∈ s.tasks := by
  simp only [phaseAt] at h
  rcases List.getElem?_eq_some_iff.mp h with ⟨hlt, hget⟩
  exact ⟨hlt, h, hget ▸ List.getElem_mem hlt⟩

/-- Specialization of `countP_set_add` to a group state. -/
theorem countP_setPhase (P : Phase → Bool) {s : GState} {t : Nat} {p : Phase}
    (h : phaseAt s t = some p) (q : Phase) :
    (setPhase s t q).tasks.countP P + (if P p then 1 else 0) =
      s.tasks.countP P + (if P q then 1 else 0) := by
  obtain ⟨hlt, hget, _⟩ := phaseAt_elim h
  simpa using countP_set_add P s.tasks t q hlt p hget

/-- A task phase satisfying `P` makes the `P`-count positive. -/
theorem countP_pos_of_phaseAt (P : Phase → Bool) {s : GState} {t : Nat} {p : Phase}
    (h : phaseAt s t = some p) (hP : P p = true) :
    0 < s.tasks.countP P := by
  obtain ⟨_, _, hmem⟩ := phaseAt_elim h
  exact List.countP_pos_iff.mpr ⟨p, hmem, hP⟩

/-! ### The generic invariant principle for runs -/

/-- Any property preserved by every possible step holds at the end of every
run that starts in a state satisfying it. -/
theorem foldl_preserves (P : GState → Prop)
    (hstep : ∀ s e s', P s → step s e = some s' → P s') :
    ∀ (evs : List Ev) (s0 s : GState),
      List.foldlM step s0 evs = some s → P s0 → P s := by
  intro evs
  induction evs with
  | nil =>
    intro s0 s h hP
    simp only [List.foldlM_nil] at h
    cases h
    exact hP
  | cons e evs ih =>
    intro s0 s h hP
    simp only [List.foldlM_cons] at h
    rcases Option.bind_eq_some.mp h with ⟨s1, h1, h2⟩
    exact ih s1 s h2 (hstep s0 e s1 hP h1)

/-- `run`-level form of `foldl_preserves`. -/
theorem run_preserves (P : GState → Prop)
    (hstep : ∀ s e s', P s → step s e = some s' → P s')
    {cfgs : List Configurer} {evs : List Ev} {s : GState}
    (h : run cfgs evs = some s) (hinit : P (New cfgs)) : P s :=
  foldl_preserves P hstep evs (New cfgs) s h hinit

/-! ### Step-level preservation facts -/

/-- No event changes the configuration fields `hasCancel`, `hasSem`,
`limit`: they are written only by `configure`. -/
theorem step_config {s s' : GState} {e : Ev} (h : step s e = some s') :
    s'.hasCancel = s.hasCancel ∧ s'.hasSem = s.hasSem ∧ s'.limit = s.limit := by
  cases e with
  | go r =>
    rcases go_inv h with ⟨_, rfl⟩ | ⟨_, _, rfl⟩ <;> simp
  | tryGo r =>
    rcases tryGo_inv h with ⟨_, rfl⟩ | ⟨_, _, rfl⟩ | ⟨_, _, rfl⟩ <;> simp
  | fail t =>
    rcases fail_inv h with ⟨e, _, ⟨_, rfl⟩ | ⟨_, rfl⟩⟩ <;> simp
  | succeed t =>
    rcases succeed_inv h with ⟨_, rfl⟩; simp
  | invoke t =>
    rcases invoke_inv h with ⟨e, _, _, rfl⟩; simp
  | append t =>
    rcases append_inv h with ⟨e, rfl, _⟩; simp [setPhase]
  | finish t =>
    rcases finish_inv h with ⟨b, _, rfl⟩; simp
  | wait =>
    rcases wait_inv h with ⟨_, ⟨_, rfl⟩ | ⟨_, rfl⟩⟩ <;> simp

/-- `g.cancelled` is never reset: once `true`, always `true`. -/
theorem step_cancelled_mono {s s' : GState} {e : Ev} (h : step s e = some s')
    (hc : s.cancelled = true) : s'.cancelled = true := by
  cases e with
  | go r =>
    rcases go_inv h with ⟨_, rfl⟩ | ⟨hf, _, rfl⟩
    · exact hc
    · simp_all
  | tryGo r =>
    rcases tryGo_inv h with ⟨_, rfl⟩ | ⟨_, _, rfl⟩ | ⟨hf, _, rfl⟩ <;> simp_all
  | fail t =>
    rcases fail_inv h with ⟨e, _, ⟨_, rfl⟩ | ⟨hf, rfl⟩⟩ <;> simp_all
  | succeed t =>
    rcases succeed_inv h with ⟨_, rfl⟩; simpa using hc
  | invoke t =>
    rcases invoke_inv h with ⟨e, _, _, rfl⟩; simp
  | append t =>
    rcases append_inv h with ⟨e, rfl, _⟩; simpa [setPhase] using hc
  | finish t =>
    rcases finish_inv h with ⟨b, _, rfl⟩; simpa using hc
  | wait =>
    rcases wait_inv h with ⟨_, ⟨_, rfl⟩ | ⟨_, rfl⟩⟩ <;> simp_all

/-- Run-level: the configuration fields never change. -/
theorem foldl_config {evs : List Ev} {s0 s : GState}
    (h : List.foldlM step s0 evs = some s) :
    s.hasCancel = s0.hasCancel ∧ s.hasSem = s0.hasSem ∧ s.limit = s0.limit :=
  foldl_preserves
    (fun x => x.hasCancel = s0.hasCancel ∧ x.hasSem = s0.hasSem ∧ x.limit = s0.limit)
    (fun _ _ _ hP hs => by
      obtain ⟨h1, h2, h3⟩ := step_config hs
      exact ⟨h1.trans hP.1, h2.trans hP.2.1, h3.trans hP.2.2⟩)
    evs s0 s h ⟨rfl, rfl, rfl⟩

/-- Run-level: once cancelled, a group stays cancelled. -/
theorem foldl_cancelled_mono {evs : List Ev} {s0 s : GState}
    (h : List.foldlM step s0 evs = some s) (hc : s0.cancelled = true) :
    s.cancelled = true :=
  foldl_preserves (fun x => x.cancelled = true)
    (fun _ _ _ hP hs => step_cancelled_mono hs hP) evs s0 s h hc

/-! ### Facts about `New` -/

/-- `configure` touches only the configuration fields. -/
theorem configure_dyn (s : GState) (c : Configurer) :
    (configure s c).cancelled = s.cancelled ∧
      (configure s c).cancelCalls = s.cancelCalls ∧
      (configure s c).err = s.err ∧ (configure s c).tasks = s.tasks := by
  cases c <;> simp [configure]

/-- A fresh group has no goroutines, no aggregated error, is not cancelled
and has never invoked a cancel function. -/
theorem New_dyn (cfgs : List Configurer) :
    (New cfgs).cancelled = false ∧ (New cfgs).cancelCalls = 0 ∧
      (New cfgs).err = [] ∧ (New cfgs).tasks = [] := by
  suffices h : ∀ (cs : List Configurer) (s : GState),
      (cs.foldl configure s).cancelled = s.cancelled ∧
      (cs.foldl configure s).cancelCalls = s.cancelCalls ∧
      (cs.foldl configure s).err = s.err ∧
      (cs.foldl configure s).tasks = s.tasks by
    exact h cfgs zeroGroup
  intro cs
  induction cs with
  | nil => intro s; simp
  | cons c cs ih =>
    intro s
    obtain ⟨h1, h2, h3, h4⟩ := configure_dyn s c
    obtain ⟨g1, g2, g3, g4⟩ := ih (configure s c)
    exact ⟨g1.trans h1, g2.trans h2, g3.trans h3, g4.trans h4⟩

/-- A group built with a `cancelConfigurer` among its configurers has a
bound cancel function. -/
theorem New_hasCancel_of_mem {cfgs : List Configurer}
    (h : Configurer.withCancel ∈ cfgs) : (New cfgs).hasCancel = true := by
  suffices hg : ∀ (cs : List Configurer) (s : GState),
      (Configurer.withCancel ∈ cs ∨ s.hasCancel = true) →
      (cs.foldl configure s).hasCancel = true by
    exact hg cfgs zeroGroup (Or.inl h)
  intro cs
  induction cs with
  | nil =>
    intro s hs
    rcases hs with hs | hs
    · simp at hs
    · simpa using hs
  | cons c cs ih =>
    intro s hs
    simp only [List.foldl_cons]
    apply ih
    rcases hs with hs | hs
    · rcases List.mem_cons.mp hs with rfl | hs
      · right; simp [configure]
      · left; exact hs
    · right; cases c <;> simp [configure, hs]

/-- Without a `cancelConfigurer`, a group has no bound cancel function. -/
theorem New_hasCancel_of_not_mem {cfgs : List Configurer}
    (h : Configurer.withCancel ∉ cfgs) : (New cfgs).hasCancel = false := by
  suffices hg : ∀ (cs : List Configurer) (s : GState),
      Configurer.withCancel ∉ cs → s.hasCancel = false →
      (cs.foldl configure s).hasCancel = false by
    exact hg cfgs zeroGroup h rfl
  intro cs
  induction cs with
  | nil => intro s _ hs; simpa using hs
  | cons c cs ih =>
    intro s hs h0
    simp only [List.foldl_cons]
    refine ih (configure s c) (fun hc => hs (List.mem_cons_of_mem _ hc)) ?_
    cases c with
    | withCancel => exact absurd (List.mem_cons_self _ _) hs
    | withLimit l => simpa [configure] using h0

/-! ### The error-aggregation invariant -/

/-- Counting a launched goroutine. -/
theorem countP_launch (P : Phase → Bool) (s : GState) (r : TaskRet) :
    (launch s r).tasks.countP P =
      s.tasks.countP P + (if P (.running r) then 1 else 0) := by
  simp [List.countP_append, List.countP_cons]

/-- When nothing is pending every goroutine is done. -/
theorem all_done_of_pending_zero {s : GState} (h : pending s = 0) :
    ∀ p ∈ s.tasks, p.isDone = true := by
  intro p hp
  have := List.countP_eq_zero.mp h p hp
  simpa using this

/-- When nothing is pending no goroutine is mid failure-path. -/
theorem mid_zero_of_pending_zero {s : GState} (h : pending s = 0) :
    s.tasks.countP Phase.isMid = 0 := by
  rw [List.countP_eq_zero]
  intro p hp hmid
  have hd := all_done_of_pending_zero h p hp
  cases p <;> simp_all [Phase.isMid, Phase.isDone]

/-- Invariant relating `g.err` to the phases of the goroutines:

* (A) a non-empty aggregate means some goroutine failed;
* (B) a failed goroutine means the aggregate is already non-empty or some
  goroutine is still mid failure-path and will append its error;
* (C) when the cancelled flag is up, the aggregate is non-empty, or some
  goroutine is mid failure-path, or no goroutine can ever fail (the flag
  was raised by `Wait` on a group whose goroutines all succeeded);
* (D) counting: appended errors plus mid-failure-path goroutines never
  exceed failed goroutines. -/
def ErrInv (s : GState) : Prop :=
  (s.err ≠ [] → 0 < s.tasks.countP Phase.isFailed) ∧
  (0 < s.tasks.countP Phase.isFailed →
    s.err ≠ [] ∨ 0 < s.tasks.countP Phase.isMid) ∧
  (s.cancelled = true →
    s.err ≠ [] ∨ 0 < s.tasks.countP Phase.isMid ∨
      s.tasks.countP (fun p => !p.neverFails) = 0) ∧
  s.err.length + s.tasks.countP Phase.isMid ≤ s.tasks.countP Phase.isFailed

/-- Variant of `countP_setPhase` with the two contributions pre-computed. -/
theorem countP_setPhase_eq (P : Phase → Bool) {s : GState} {t : Nat} {p : Phase}
    (h : phaseAt s t = some p) (q : Phase) (a b : Nat)
    (ha : (if P p = true then 1 else 0) = a) (hb : (if P q = true then 1 else 0) = b) :
    (setPhase s t q).tasks.countP P + a = s.tasks.countP P + b := by
  rw [← ha, ← hb]; exact countP_setPhase P h q

/-- `ErrInv` is preserved by every possible step. -/
theorem ErrInv_step : ∀ s ev s', ErrInv s → step s ev = some s' → ErrInv s' := by
  intro s ev s' hInv hstep
  obtain ⟨hA, hB, hC, hD⟩ := hInv
  cases ev with
  | go r =>
    rcases go_inv hstep with ⟨_, rfl⟩ | ⟨hc, _, rfl⟩
    · exact ⟨hA, hB, hC, hD⟩
    · have hF : (launch s r).tasks.countP Phase.isFailed =
          s.tasks.countP Phase.isFailed := by rw [countP_launch]; rfl
      have hM : (launch s r).tasks.countP Phase.isMid =
          s.tasks.countP Phase.isMid := by rw [countP_launch]; rfl
      refine ⟨?_, ?_, ?_, ?_⟩
      · rw [launch_err, hF]; exact hA
      · rw [launch_err, hF, hM]; exact hB
      · rw [launch_cancelled]; intro hcc; rw [hc] at hcc; cases hcc
      · rw [launch_err, hF, hM]; exact hD
  | tryGo r =>
    rcases tryGo_inv hstep with ⟨_, rfl⟩ | ⟨_, _, rfl⟩ | ⟨hc, _, rfl⟩
    · exact ⟨hA, hB, hC, hD⟩
    · exact ⟨hA, hB, hC, hD⟩
    · have hF : (launch s r).tasks.countP Phase.isFailed =
          s.tasks.countP Phase.isFailed := by rw [countP_launch]; rfl
      have hM : (launch s r).tasks.countP Phase.isMid =
          s.tasks.countP Phase.isMid := by rw [countP_launch]; rfl
      refine ⟨?_, ?_, ?_, ?_⟩
      · rw [launch_err, hF]; exact hA
      · rw [launch_err, hF, hM]; exact hB
      · rw [launch_cancelled]; intro hcc; rw [hc] at hcc; cases hcc
      · rw [launch_err, hF, hM]; exact hD
  | fail t =>
    rcases fail_inv hstep with ⟨e, hp, ⟨hcanc, rfl⟩ | ⟨hcanc, rfl⟩⟩
    · -- fast check saw `cancelled = true`: the error is dropped
      have hF := countP_setPhase_eq Phase.isFailed hp (.finishing true) 0 1 rfl rfl
      have hM := countP_setPhase_eq Phase.isMid hp (.finishing true) 0 0 rfl rfl
      have hnotbad : s.tasks.countP (fun p => !p.neverFails) ≠ 0 := by
        intro h0
        have := List.countP_eq_zero.mp h0 _ (phaseAt_elim hp).2.2
        simp [Phase.neverFails] at this
      have hdisj : s.err ≠ [] ∨ 0 < s.tasks.countP Phase.isMid := by
        rcases hC hcanc with h | h | h
        · exact Or.inl h
        · exact Or.inr h
        · exact absurd h hnotbad
      refine ⟨?_, ?_, ?_, ?_⟩ <;>
        simp only [setPhase_err, setPhase_cancelled]
      · intro _; omega
      · intro _
        rcases hdisj with h | h
        · exact Or.inl h
        · exact Or.inr (by omega)
      · intro _
        rcases hdisj with h | h
        · exact Or.inl h
        · exact Or.inr (Or.inl (by omega))
      · omega
    · -- fast check saw `false`: the goroutine enters the failure path
      have hF := countP_setPhase_eq Phase.isFailed hp (.passedCheck e) 0 1 rfl rfl
      have hM := countP_setPhase_eq Phase.isMid hp (.passedCheck e) 0 1 rfl rfl
      refine ⟨?_, ?_, ?_, ?_⟩ <;>
        simp only [setPhase_err, setPhase_cancelled]
      · intro _; omega
      · intro _; exact Or.inr (by omega)
      · intro hcc; rw [hcanc] at hcc; cases hcc
      · omega
  | succeed t =>
    rcases succeed_inv hstep with ⟨hp, rfl⟩
    have hF := countP_setPhase_eq Phase.isFailed hp (.finishing false) 0 0 rfl rfl
    have hM := countP_setPhase_eq Phase.isMid hp (.finishing false) 0 0 rfl rfl
    have hN := countP_setPhase_eq (fun p => !p.neverFails) hp (.finishing false)
      0 0 rfl rfl
    refine ⟨?_, ?_, ?_, ?_⟩ <;>
      simp only [setPhase_err, setPhase_cancelled]
    · intro hne; have := hA hne; omega
    · intro h0
      rcases hB (by omega) with h | h
      · exact Or.inl h
      · exact Or.inr (by omega)
    · intro hcc
      rcases hC hcc with h | h | h
      · exact Or.inl h
      · exact Or.inr (Or.inl (by omega))
      · exact Or.inr (Or.inr (by omega))
    · omega
  | invoke t =>
    rcases invoke_inv hstep with ⟨e, hp, _, rfl⟩
    have hmid : 0 < s.tasks.countP Phase.isMid :=
      countP_pos_of_phaseAt Phase.isMid hp rfl
    have hF := countP_setPhase_eq Phase.isFailed hp (.invoked e) 1 1 rfl rfl
    have hM := countP_setPhase_eq Phase.isMid hp (.invoked e) 1 1 rfl rfl
    refine ⟨?_, ?_, ?_, ?_⟩ <;>
      simp only [fireCancel_err, fireCancel_tasks, fireCancel_cancelled,
        setPhase_err]
    · intro hne; have := hA hne; omega
    · intro h0
      rcases hB (by omega) with h | h
      · exact Or.inl h
      · exact Or.inr (by omega)
    · intro _; exact Or.inr (Or.inl (by omega))
    · omega
  | append t =>
    rcases append_inv hstep with ⟨e, rfl, hcase⟩
    have hp : ∃ p0, phaseAt s t = some p0 ∧ Phase.isFailed p0 = true ∧
        Phase.isMid p0 = true := by
      rcases hcase with h | ⟨h, _⟩
      · exact ⟨_, h, rfl, rfl⟩
      · exact ⟨_, h, rfl, rfl⟩
    obtain ⟨p0, hp0, hpF, hpM⟩ := hp
    have hF := countP_setPhase_eq Phase.isFailed hp0 (.finishing true) 1 1
      (by rw [hpF]; rfl) rfl
    have hM := countP_setPhase_eq Phase.isMid hp0 (.finishing true) 1 0
      (by rw [hpM]; rfl) rfl
    have hFpos : 0 < s.tasks.countP Phase.isFailed :=
      countP_pos_of_phaseAt Phase.isFailed hp0 hpF
    have hlen : (s.err ++ [e]).length = s.err.length + 1 := by simp
    refine ⟨?_, ?_, ?_, ?_⟩
    · show (s.err ++ [e]) ≠ [] →
        0 < (setPhase s t (Phase.finishing true)).tasks.countP Phase.isFailed
      intro _; omega
    · show 0 < (setPhase s t (Phase.finishing true)).tasks.countP Phase.isFailed →
        (s.err ++ [e]) ≠ [] ∨
          0 < (setPhase s t (Phase.finishing true)).tasks.countP Phase.isMid
      intro _; exact Or.inl (by simp)
    · show s.cancelled = true → (s.err ++ [e]) ≠ [] ∨
          0 < (setPhase s t (Phase.finishing true)).tasks.countP Phase.isMid ∨
          (setPhase s t (Phase.finishing true)).tasks.countP
            (fun p => !p.neverFails) = 0
      intro _; exact Or.inl (by simp)
    · show (s.err ++ [e]).length +
          (setPhase s t (Phase.finishing true)).tasks.countP Phase.isMid ≤
          (setPhase s t (Phase.finishing true)).tasks.countP Phase.isFailed
      omega
  | finish t =>
    rcases finish_inv hstep with ⟨b, hp, rfl⟩
    cases b with
    | false =>
      have hF := countP_setPhase_eq Phase.isFailed hp (.done false) 0 0 rfl rfl
      have hM := countP_setPhase_eq Phase.isMid hp (.done false) 0 0 rfl rfl
      have hN := countP_setPhase_eq (fun p => !p.neverFails) hp (.done false)
        0 0 rfl rfl
      refine ⟨?_, ?_, ?_, ?_⟩ <;>
        simp only [setPhase_err, setPhase_cancelled]
      · intro hne; have := hA hne; omega
      · intro h0
        rcases hB (by omega) with h | h
        · exact Or.inl h
        · exact Or.inr (by omega)
      · intro hcc
        rcases hC hcc with h | h | h
        · exact Or.inl h
        · exact Or.inr (Or.inl (by omega))
        · exact Or.inr (Or.inr (by omega))
      · omega
    | true =>
      have hF := countP_setPhase_eq Phase.isFailed hp (.done true) 1 1 rfl rfl
      have hM := countP_setPhase_eq Phase.isMid hp (.done true) 0 0 rfl rfl
      have hN := countP_setPhase_eq (fun p => !p.neverFails) hp (.done true)
        1 1 rfl rfl
      refine ⟨?_, ?_, ?_, ?_⟩ <;>
        simp only [setPhase_err, setPhase_cancelled]
      · intro hne; have := hA hne; omega
      · intro h0
        rcases hB (by omega) with h | h
        · exact Or.inl h
        · exact Or.inr (by omega)
      · intro hcc
        rcases hC hcc with h | h | h
        · exact Or.inl h
        · exact Or.inr (Or.inl (by omega))
        · exact Or.inr (Or.inr (by omega))
      · omega
  | wait =>
    rcases wait_inv hstep with ⟨hpend, ⟨_, rfl⟩ | ⟨_, rfl⟩⟩
    · refine ⟨hA, hB, ?_, hD⟩
      intro _
      by_cases herr : s.err = []
      · refine Or.inr (Or.inr ?_)
        rw [fireCancel_tasks, List.countP_eq_zero]
        intro p hpmem hbad
        simp only [Bool.not_eq_true'] at hbad
        have hdone := all_done_of_pending_zero hpend p hpmem
        have hfail : Phase.isFailed p = true := by
          cases p with
          | running r => simp [Phase.isDone] at hdone
          | passedCheck e => simp [Phase.isDone] at hdone
          | invoked e => simp [Phase.isDone] at hdone
          | finishing b => simp [Phase.isDone] at hdone
          | done b =>
            cases b with
            | false => simp [Phase.neverFails] at hbad
            | true => rfl
        have h0 : 0 < s.tasks.countP Phase.isFailed :=
          List.countP_pos_iff.mpr ⟨p, hpmem, hfail⟩
        rcases hB h0 with h | h
        · exact h herr
        · rw [mid_zero_of_pending_zero hpend] at h; exact absurd h (by simp)
      · exact Or.inl (by simpa using herr)
    · exact ⟨hA, hB, hC, hD⟩

/-- `ErrInv` holds in every reachable state. -/
theorem run_ErrInv {cfgs : List Configurer} {evs : List Ev} {s : GState}
    (h : run cfgs evs = some s) : ErrInv s := by
  obtain ⟨h1, h2, h3, h4⟩ := New_dyn cfgs
  refine run_preserves ErrInv ErrInv_step h ?_
  refine ⟨?_, ?_, ?_, ?_⟩ <;> rw [h3, h4] <;> simp [h1]

/-! ### Groups without a bound cancel function -/

/-- Without a bound cancel function, no step can raise the cancelled flag:
only `g.cancel()` (from the failure path or from `Wait`) stores to it. -/
theorem step_noCancel {s s' : GState} {ev : Ev} (h : step s ev = some s')
    (hnc : s.hasCancel = false) (hc : s.cancelled = false) :
    s'.cancelled = false := by
  cases ev with
  | go r =>
    rcases go_inv h with ⟨_, rfl⟩ | ⟨_, _, rfl⟩ <;> simp_all
  | tryGo r =>
    rcases tryGo_inv h with ⟨_, rfl⟩ | ⟨_, _, rfl⟩ | ⟨_, _, rfl⟩ <;> simp_all
  | fail t =>
    rcases fail_inv h with ⟨e, _, ⟨_, rfl⟩ | ⟨_, rfl⟩⟩ <;> simp_all
  | succeed t =>
    rcases succeed_inv h with ⟨_, rfl⟩; simp_all
  | invoke t =>
    rcases invoke_inv h with ⟨e, _, hcan, _⟩; rw [hnc] at hcan; cases hcan
  | append t =>
    rcases append_inv h with ⟨e, rfl, _⟩; simpa [setPhase] using hc
  | finish t =>
    rcases finish_inv h with ⟨b, _, rfl⟩; simp_all
  | wait =>
    rcases wait_inv h with ⟨_, ⟨hcan, rfl⟩ | ⟨_, rfl⟩⟩
    · rw [hnc] at hcan; cases hcan
    · exact hc

/-- Error accounting for groups without a bound cancel function: the
cancelled flag stays down and `g.err` holds exactly one error per
goroutine that has completed the append of the failure path. -/
def NoCancelInv (s : GState) : Prop :=
  s.hasCancel = false →
    s.cancelled = false ∧ s.err.length = s.tasks.countP Phase.hasAppended

/-- `NoCancelInv` is preserved by every possible step. -/
theorem NoCancelInv_step :
    ∀ s ev s', NoCancelInv s → step s ev = some s' → NoCancelInv s' := by
  intro s ev s' hInv hstep hnc'
  have hnc : s.hasCancel = false := by
    rw [← (step_config hstep).1]; exact hnc'
  obtain ⟨hc, hlen⟩ := hInv hnc
  refine ⟨step_noCancel hstep hnc hc, ?_⟩
  cases ev with
  | go r =>
    rcases go_inv hstep with ⟨hcc, rfl⟩ | ⟨_, _, rfl⟩
    · exact hlen
    · rw [launch_err, countP_launch]; simpa using hlen
  | tryGo r =>
    rcases tryGo_inv hstep with ⟨_, rfl⟩ | ⟨_, _, rfl⟩ | ⟨_, _, rfl⟩
    · exact hlen
    · exact hlen
    · rw [launch_err, countP_launch]; simpa using hlen
  | fail t =>
    rcases fail_inv hstep with ⟨e, hp, ⟨hcc, rfl⟩ | ⟨_, rfl⟩⟩
    · rw [hcc] at hc; cases hc
    · have := countP_setPhase_eq Phase.hasAppended hp (.passedCheck e) 0 0 rfl rfl
      rw [setPhase_err]; omega
  | succeed t =>
    rcases succeed_inv hstep with ⟨hp, rfl⟩
    have := countP_setPhase_eq Phase.hasAppended hp (.finishing false) 0 0 rfl rfl
    rw [setPhase_err]; omega
  | invoke t =>
    rcases invoke_inv hstep with ⟨e, _, hcan, _⟩; rw [hnc] at hcan; cases hcan
  | append t =>
    rcases append_inv hstep with ⟨e, rfl, hcase⟩
    have hp : ∃ p0, phaseAt s t = some p0 ∧ Phase.hasAppended p0 = false := by
      rcases hcase with h | ⟨h, _⟩
      · exact ⟨_, h, rfl⟩
      · exact ⟨_, h, rfl⟩
    obtain ⟨p0, hp0, hpA⟩ := hp
    have := countP_setPhase_eq Phase.hasAppended hp0 (.finishing true) 0 1
      (by rw [hpA]; rfl) rfl
    show (s.err ++ [e]).length =
      (setPhase s t (Phase.finishing true)).tasks.countP Phase.hasAppended
    rw [List.length_append]
    simp only [List.length_cons, List.length_nil]
    omega
  | finish t =>
    rcases finish_inv hstep with ⟨b, hp, rfl⟩
    cases b with
    | false =>
      have := countP_setPhase_eq Phase.hasAppended hp (.done false) 0 0 rfl rfl
      rw [setPhase_err]; omega
    | true =>
      have := countP_setPhase_eq Phase.hasAppended hp (.done true) 1 1 rfl rfl
      rw [setPhase_err]; omega
  | wait =>
    rcases wait_inv hstep with ⟨_, ⟨hcan, rfl⟩ | ⟨_, rfl⟩⟩
    · rw [hnc] at hcan; cases hcan
    · exact hlen

/-- `NoCancelInv` holds in every reachable state. -/
theorem run_NoCancelInv {cfgs : List Configurer} {evs : List Ev} {s : GState}
    (h : run cfgs evs = some s) : NoCancelInv s := by
  obtain ⟨h1, _, h3, h4⟩ := New_dyn cfgs
  refine run_preserves NoCancelInv NoCancelInv_step h ?_
  intro _
  rw [h1, h3, h4]
  simp

/-- Once every goroutine is done, the goroutines that appended an error
are exactly the failed ones. -/
theorem appended_eq_failed_of_pending_zero {s : GState} (h : pending s = 0) :
    s.tasks.countP Phase.hasAppended = s.tasks.countP Phase.isFailed := by
  refine List.countP_congr ?_
  intro p hp
  have hdone := all_done_of_pending_zero h p hp
  cases p <;> simp_all [Phase.isDone, Phase.hasAppended, Phase.isFailed]

/-! ### Where cancel invocations come from -/

/-- A cancel invocation can only originate from a goroutine whose function
returned an error, or from a `Wait` call: a run of other events starting
with no invocations and no failed goroutine ends the same way. -/
theorem cancelCalls_origin :
    ∀ (evs : List Ev) (s0 s : GState), List.foldlM step s0 evs = some s →
      s0.cancelCalls = 0 → s0.tasks.countP Phase.isFailed = 0 →
      0 < s.cancelCalls → Ev.wait ∈ evs ∨ ∃ t, Ev.fail t ∈ evs := by
  intro evs
  induction evs with
  | nil =>
    intro s0 s h h1 _ h3
    simp only [List.foldlM_nil] at h
    cases h
    omega
  | cons e evs ih =>
    intro s0 s h h1 h2 h3
    simp only [List.foldlM_cons] at h
    rcases Option.bind_eq_some.mp h with ⟨s1, hstep, hrest⟩
    cases e with
    | wait => exact Or.inl (List.mem_cons_self _ _)
    | fail t => exact Or.inr ⟨t, List.mem_cons_self _ _⟩
    | go r =>
      have hkeep : s1.cancelCalls = 0 ∧ s1.tasks.countP Phase.isFailed = 0 := by
        rcases go_inv hstep with ⟨_, rfl⟩ | ⟨_, _, rfl⟩
        · exact ⟨h1, h2⟩
        · refine ⟨h1, ?_⟩
          rw [countP_launch]
          show s0.tasks.countP Phase.isFailed + 0 = 0
          omega
      rcases ih s1 s hrest hkeep.1 hkeep.2 h3 with hh | ⟨t, hh⟩
      · exact Or.inl (List.mem_cons_of_mem _ hh)
      · exact Or.inr ⟨t, List.mem_cons_of_mem _ hh⟩
    | tryGo r =>
      have hkeep : s1.cancelCalls = 0 ∧ s1.tasks.countP Phase.isFailed = 0 := by
        rcases tryGo_inv hstep with ⟨_, rfl⟩ | ⟨_, _, rfl⟩ | ⟨_, _, rfl⟩
        · exact ⟨h1, h2⟩
        · exact ⟨h1, h2⟩
        · refine ⟨h1, ?_⟩
          rw [countP_launch]
          show s0.tasks.countP Phase.isFailed + 0 = 0
          omega
      rcases ih s1 s hrest hkeep.1 hkeep.2 h3 with hh | ⟨t, hh⟩
      · exact Or.inl (List.mem_cons_of_mem _ hh)
      · exact Or.inr ⟨t, List.mem_cons_of_mem _ hh⟩
    | succeed t =>
      obtain ⟨hp, rfl⟩ := succeed_inv hstep
      have hcnt := countP_setPhase_eq Phase.isFailed hp (.finishing false) 0 0 rfl rfl
      rcases ih _ s hrest h1 (by omega) h3 with hh | ⟨u, hh⟩
      · exact Or.inl (List.mem_cons_of_mem _ hh)
      · exact Or.inr ⟨u, List.mem_cons_of_mem _ hh⟩
    | invoke t =>
      obtain ⟨e, hp, _, rfl⟩ := invoke_inv hstep
      have := countP_pos_of_phaseAt Phase.isFailed hp rfl
      omega
    | append t =>
      obtain ⟨e, rfl, hcase⟩ := append_inv hstep
      have hpos : 0 < s0.tasks.countP Phase.isFailed := by
        rcases hcase with hp | ⟨hp, _⟩
        · exact countP_pos_of_phaseAt Phase.isFailed hp rfl
        · exact countP_pos_of_phaseAt Phase.isFailed hp rfl
      omega
    | finish t =>
      obtain ⟨b, hp, rfl⟩ := finish_inv hstep
      cases b with
      | true =>
        have := countP_pos_of_phaseAt Phase.isFailed hp rfl
        omega
      | false =>
        have hcnt := countP_setPhase_eq Phase.isFailed hp (.done false) 0 0 rfl rfl
        rcases ih _ s hrest h1 (by omega) h3 with hh | ⟨u, hh⟩
        · exact Or.inl (List.mem_cons_of_mem _ hh)
        · exact Or.inr ⟨u, List.mem_cons_of_mem _ hh⟩

/-! ### The cancelled flag implies an invocation -/

/-- The only store to `g.cancelled` is the `Store(true)` inside the bound
cancel function, so a raised flag means that function has been invoked. -/
theorem step_cancelled_calls {s s' : GState} {ev : Ev} (h : step s ev = some s')
    (hP : s.cancelled = true → 1 ≤ s.cancelCalls) :
    s'.cancelled = true → 1 ≤ s'.cancelCalls := by
  cases ev with
  | go r =>
    rcases go_inv h with ⟨_, rfl⟩ | ⟨hc, _, rfl⟩
    · exact hP
    · intro hcc; rw [launch_cancelled, hc] at hcc; cases hcc
  | tryGo r =>
    rcases tryGo_inv h with ⟨_, rfl⟩ | ⟨_, _, rfl⟩ | ⟨hc, _, rfl⟩
    · exact hP
    · exact hP
    · intro hcc; rw [launch_cancelled, hc] at hcc; cases hcc
  | fail t =>
    rcases fail_inv h with ⟨e, _, ⟨_, rfl⟩ | ⟨_, rfl⟩⟩ <;>
      · intro hcc
        rw [setPhase_cancelled] at hcc
        simpa using hP hcc
  | succeed t =>
    rcases succeed_inv h with ⟨_, rfl⟩
    intro hcc
    rw [setPhase_cancelled] at hcc
    simpa using hP hcc
  | invoke t =>
    rcases invoke_inv h with ⟨e, _, _, rfl⟩
    intro _
    rw [fireCancel_cancelCalls]
    omega
  | append t =>
    rcases append_inv h with ⟨e, rfl, _⟩
    intro hcc
    simpa [setPhase] using hP (by simpa [setPhase] using hcc)
  | finish t =>
    rcases finish_inv h with ⟨b, _, rfl⟩
    intro hcc
    rw [setPhase_cancelled] at hcc
    simpa using hP hcc
  | wait =>
    rcases wait_inv h with ⟨_, ⟨_, rfl⟩ | ⟨_, rfl⟩⟩
    · intro _; rw [fireCancel_cancelCalls]; omega
    · exact hP

/-! ### Decomposing runs -/

/-- Split a run around a `Wait` event. -/
theorem run_split_wait {cfgs : List Configurer} {evs evs' : List Ev} {s : GState}
    (h : run cfgs (evs ++ Ev.wait :: evs') = some s) :
    ∃ sm sw, run cfgs evs = some sm ∧ step sm Ev.wait = some sw ∧
      List.foldlM step sw evs' = some s := by
  unfold run at h ⊢
  rw [List.foldlM_append] at h
  rcases Option.bind_eq_some.mp h with ⟨sm, h1, h2⟩
  rw [List.foldlM_cons] at h2
  rcases Option.bind_eq_some.mp h2 with ⟨sw, h3, h4⟩
  exact ⟨sm, sw, h1, h3, h4⟩

/-! ### Claim C1 -/

/-- Claim C1 as stated is false: the claim says the bound cancel capability
is invoked only when some launched task returns a failure, and never when
no task fails, "including by Wait".  But `Wait` (errgroup.go lines 138-140)
invokes `g.cancel()` unconditionally: on a cancel-bound group with no
goroutines at all, a single `Wait` call leaves one invocation. -/
theorem c1_counterexample :
    (run [Configurer.withCancel] [Ev.wait]).map
      (fun s => (s.cancelCalls, s.tasks.length)) = some (1, 0) := rfl

/-- Claim C1 (amended): the bound cancel capability is invoked only when
some launched task has returned a failure or `Wait` has been called — in
particular it is never invoked in a run with no failure and no `Wait`.
(`Wait` invokes it unconditionally, and two goroutines failing
concurrently can each invoke it, so "at most once, only on failure" does
not hold.) -/
theorem c1_amended (cfgs : List Configurer) (evs : List Ev) (s : GState)
    (h : run cfgs evs = some s) (hpos : 0 < s.cancelCalls) :
    Ev.wait ∈ evs ∨ ∃ t, Ev.fail t ∈ evs := by
  obtain ⟨_, h2, _, h4⟩ := New_dyn cfgs
  exact cancelCalls_origin evs (New cfgs) s h h2 (by rw [h4]; rfl) hpos

/-- Claim C1 (amended), witnessed on a concrete run with one failing
goroutine that invokes the cancel capability. -/
theorem c1_witness :
    run [Configurer.withCancel] [Ev.go (some 1), Ev.fail 0, Ev.invoke 0] =
        some ⟨true, false, 0, true, 1, [], [Phase.invoked 1]⟩ ∧
      0 < (GState.mk true false 0 true 1 [] [Phase.invoked 1]).cancelCalls ∧
      (Ev.wait ∈ [Ev.go (some 1), Ev.fail 0, Ev.invoke 0] ∨
        ∃ t, Ev.fail t ∈ [Ev.go (some 1), Ev.fail 0, Ev.invoke 0]) :=
  ⟨rfl, by decide,
    c1_amended [Configurer.withCancel] [Ev.go (some 1), Ev.fail 0, Ev.invoke 0]
      ⟨true, false, 0, true, 1, [], [Phase.invoked 1]⟩ rfl (by decide)⟩

/-! ### Claim C2 -/

/-- Claim C2 as stated is false: it says a failing task's error is appended
"regardless of whether the group was already cancelled when the task
finished".  In the code (errgroup.go line 119) the whole failure block is
skipped when `g.cancelled.Load()` is already true.  Concretely, on a
cancel-bound group, goroutine 0 fails (appending error 1 and cancelling),
then goroutine 1 returns error 2 and completes — but the aggregate stays
`[1]`. -/
theorem c2_counterexample :
    (run [Configurer.withCancel]
        [Ev.go (some 1), Ev.go (some 2), Ev.fail 0, Ev.invoke 0, Ev.append 0,
          Ev.finish 0, Ev.fail 1, Ev.finish 1, Ev.wait]).map
      (fun s => (s.err, s.tasks)) =
      some ([1], [Phase.done true, Phase.done true]) := rfl

/-- Claim C2 (amended): a failing task's error is appended exactly when the
cancelled flag was still down at the task's post-failure check; in a group
with no cancellation binding the flag never rises, so once all goroutines
are done the aggregate holds exactly one error per failed task. -/
theorem c2_amended (cfgs : List Configurer) (evs : List Ev) (s : GState)
    (hnc : Configurer.withCancel ∉ cfgs) (h : run cfgs evs = some s)
    (hp : pending s = 0) :
    s.err.length = s.tasks.countP Phase.isFailed := by
  have hcfg : s.hasCancel = false := by
    rw [(foldl_config h).1]; exact New_hasCancel_of_not_mem hnc
  obtain ⟨_, hlen⟩ := run_NoCancelInv h hcfg
  rw [hlen, appended_eq_failed_of_pending_zero hp]

/-- Claim C2 (amended), witnessed on a run with one failed and one
succeeded goroutine and no cancellation binding. -/
theorem c2_witness :
    Configurer.withCancel ∉ ([] : List Configurer) ∧
      run [] [Ev.go (some 4), Ev.fail 0, Ev.append 0, Ev.finish 0, Ev.go none,
          Ev.succeed 1, Ev.finish 1] =
        some ⟨false, false, 0, false, 0, [4], [Phase.done true, Phase.done false]⟩ ∧
      pending ⟨false, false, 0, false, 0, [4], [Phase.done true, Phase.done false]⟩ = 0 ∧
      (GState.mk false false 0 false 0 [4]
          [Phase.done true, Phase.done false]).err.length =
        (GState.mk false false 0 false 0 [4]
          [Phase.done true, Phase.done false]).tasks.countP Phase.isFailed :=
  ⟨by decide, rfl, by decide,
    c2_amended [] [Ev.go (some 4), Ev.fail 0, Ev.append 0, Ev.finish 0,
        Ev.go none, Ev.succeed 1, Ev.finish 1]
      ⟨false, false, 0, false, 0, [4], [Phase.done true, Phase.done false]⟩
      (by decide) rfl (by decide)⟩

/-! ### Claim C3 -/

/-- Claim C3 as stated is false: it says the cancelled flag is set on first
failure "whether or not a cancel capability is bound".  In this revision
the only store to `g.cancelled` is inside the function installed by
`cancelConfigurer.configure` (errgroup.go line 155); on a zero group a
task fails, appends its error and completes with the flag still down. -/
theorem c3_counterexample :
    (run [] [Ev.go (some 5), Ev.fail 0, Ev.append 0, Ev.finish 0]).map
      (fun s => (s.cancelled, s.tasks)) = some (false, [Phase.done true]) := rfl

/-- Claim C3 (amended): `cancelled` is not intrinsic — it is raised only by
invoking the bound cancel function, so without a cancellation configurer
it remains false forever, failures notwithstanding. -/
theorem c3_amended (cfgs : List Configurer) (evs : List Ev) (s : GState)
    (hnc : Configurer.withCancel ∉ cfgs) (h : run cfgs evs = some s) :
    s.cancelled = false := by
  have hcfg : s.hasCancel = false := by
    rw [(foldl_config h).1]; exact New_hasCancel_of_not_mem hnc
  exact (run_NoCancelInv h hcfg).1

/-- Claim C3 (amended), witnessed on a limit-only group with a failed
goroutine. -/
theorem c3_witness :
    Configurer.withCancel ∉ [Configurer.withLimit 2] ∧
      run [Configurer.withLimit 2]
          [Ev.go (some 3), Ev.fail 0, Ev.append 0, Ev.finish 0] =
        some ⟨false, true, 2, false, 0, [3], [Phase.done true]⟩ ∧
      (GState.mk false true 2 false 0 [3] [Phase.done true]).cancelled = false :=
  ⟨by decide, rfl,
    c3_amended [Configurer.withLimit 2]
      [Ev.go (some 3), Ev.fail 0, Ev.append 0, Ev.finish 0]
      ⟨false, true, 2, false, 0, [3], [Phase.done true]⟩ (by decide) rfl⟩

/-! ### Claim C4 -/

/-- Claim C4 as stated is false: it promises exactly N aggregated failures
for N failing tasks in any group "with no limit configured", but a
cancel-bound (unlimited) group drops failures observed after cancellation:
two goroutines each fail, yet `Wait` finds a single aggregated error. -/
theorem c4_counterexample :
    (run [Configurer.withCancel]
        [Ev.go (some 7), Ev.go (some 9), Ev.fail 0, Ev.invoke 0, Ev.append 0,
          Ev.finish 0, Ev.fail 1, Ev.finish 1, Ev.wait]).map
      (fun s => (s.err.length, s.tasks)) =
      some (1, [Phase.done true, Phase.done true]) := rfl

/-- Claim C4 (amended): on a group with no configurers (no limit and no
cancellation binding), once every launched goroutine has failed and
completed, `Wait` returns the aggregate, which contains exactly one error
per launched task. -/
theorem c4_amended (evs : List Ev) (s : GState) (h : run [] evs = some s)
    (hall : ∀ p ∈ s.tasks, p = Phase.done true) :
    (Wait s).map Prod.snd = some s.err ∧ s.err.length = s.tasks.length := by
  have hp : pending s = 0 := by
    rw [pending, List.countP_eq_zero]
    intro p hmem
    rw [hall p hmem]
    simp [Phase.isDone]
  have hnc : s.hasCancel = false := by
    rw [(foldl_config h).1]; rfl
  refine ⟨by simp [Wait, hp, hnc], ?_⟩
  obtain ⟨_, hlen⟩ := run_NoCancelInv h hnc
  rw [hlen, appended_eq_failed_of_pending_zero hp]
  exact List.countP_eq_length.mpr (fun p hmem => by rw [hall p hmem]; rfl)

/-- Claim C4 (amended), witnessed on two failing goroutines without
configurers: `Wait` returns both errors. -/
theorem c4_witness :
    run [] [Ev.go (some 4), Ev.fail 0, Ev.append 0, Ev.finish 0,
        Ev.go (some 6), Ev.fail 1, Ev.append 1, Ev.finish 1] =
        some ⟨false, false, 0, false, 0, [4, 6], [Phase.done true, Phase.done true]⟩ ∧
      (∀ p ∈ (GState.mk false false 0 false 0 [4, 6]
          [Phase.done true, Phase.done true]).tasks, p = Phase.done true) ∧
      (Wait ⟨false, false, 0, false, 0, [4, 6],
          [Phase.done true, Phase.done true]⟩).map Prod.snd = some [4, 6] ∧
      ([4, 6] : List Nat).length =
        ([Phase.done true, Phase.done true] : List Phase).length :=
  ⟨rfl, by decide,
    (c4_amended [Ev.go (some 4), Ev.fail 0, Ev.append 0, Ev.finish 0,
        Ev.go (some 6), Ev.fail 1, Ev.append 1, Ev.finish 1]
      ⟨false, false, 0, false, 0, [4, 6], [Phase.done true, Phase.done true]⟩
      rfl (by decide)).1,
    (c4_amended [Ev.go (some 4), Ev.fail 0, Ev.append 0, Ev.finish 0,
        Ev.go (some 6), Ev.fail 1, Ev.append 1, Ev.finish 1]
      ⟨false, false, 0, false, 0, [4, 6], [Phase.done true, Phase.done true]⟩
      rfl (by decide)).2⟩

/-! ### Claim C5 -/

/-- Claim C5: admission behaviour.  On a cancelled group, `Go` and `TryGo`
return a `CancelError` and leave the state (goroutines, aggregate) exactly
as it was; on a non-cancelled group whose permit gate is at capacity,
`TryGo` returns a `LimitError` carrying the configured limit without
launching; otherwise `TryGo` launches the task and returns nil. -/
theorem c5_admission (s : GState) (r : TaskRet) :
    (s.cancelled = true → Go s r = some (s, AdmitRes.cancelErr) ∧
      TryGo s r = (s, AdmitRes.cancelErr)) ∧
    (s.cancelled = false → full s = true →
      TryGo s r = (s, AdmitRes.limitErr s.limit)) ∧
    (s.cancelled = false → full s = false →
      TryGo s r = (launch s r, AdmitRes.ok)) := by
  refine ⟨fun hc => ⟨?_, ?_⟩, fun hc hf => ?_, fun hc hf => ?_⟩ <;>
    simp [Go, TryGo, hc] <;> simp [hf]

/-- Claim C5, witnessed on a cancelled group and on a full group with
limit 1. -/
theorem c5_witness :
    Go ⟨true, false, 0, true, 1, [], [Phase.invoked 1]⟩ (some 5) =
        some (⟨true, false, 0, true, 1, [], [Phase.invoked 1]⟩,
          AdmitRes.cancelErr) ∧
      TryGo ⟨true, false, 0, true, 1, [], [Phase.invoked 1]⟩ (some 5) =
        (⟨true, false, 0, true, 1, [], [Phase.invoked 1]⟩, AdmitRes.cancelErr) ∧
      TryGo ⟨false, true, 1, false, 0, [], [Phase.running (some 1)]⟩ (some 5) =
        (⟨false, true, 1, false, 0, [], [Phase.running (some 1)]⟩,
          AdmitRes.limitErr 1) :=
  ⟨((c5_admission ⟨true, false, 0, true, 1, [], [Phase.invoked 1]⟩ (some 5)).1
      rfl).1,
    ((c5_admission ⟨true, false, 0, true, 1, [], [Phase.invoked 1]⟩ (some 5)).1
      rfl).2,
    (c5_admission ⟨false, true, 1, false, 0, [],
      [Phase.running (some 1)]⟩ (some 5)).2.1 rfl (by decide)⟩

/-! ### Claim C6 -/

/-- Claim C6 as stated is false: the equivalence "aggregate non-empty iff
some launched task has returned a failure" is claimed at every point of
the lifetime, but there is a window in which it fails.  Goroutine 0 fails
and invokes the cancel capability but has not yet appended its error;
goroutine 1 then fails, is dropped by the fast check and completes —
a launched task has returned a non-nil error while the aggregate is still
empty. -/
theorem c6_counterexample :
    (run [Configurer.withCancel]
        [Ev.go (some 1), Ev.go (some 2), Ev.fail 0, Ev.invoke 0, Ev.fail 1,
          Ev.finish 1]).map (fun s => (s.err, s.tasks)) =
      some ([], [Phase.invoked 1, Phase.done true]) := rfl

/-- Claim C6 (amended): whenever no launched goroutine is still in flight
(in particular whenever `Wait` can return), the aggregate is non-empty iff
some launched task failed; moreover the aggregate never holds more entries
than there were failed tasks — admission rejections (`CancelError`,
`LimitError`) never enter it. -/
theorem c6_amended (cfgs : List Configurer) (evs : List Ev) (s : GState)
    (h : run cfgs evs = some s) (hp : pending s = 0) :
    (s.err ≠ [] ↔ 0 < s.tasks.countP Phase.isFailed) ∧
      s.err.length ≤ s.tasks.countP Phase.isFailed := by
  obtain ⟨hA, hB, _, hD⟩ := run_ErrInv h
  have hmid := mid_zero_of_pending_zero hp
  refine ⟨⟨hA, ?_⟩, by omega⟩
  intro h0
  rcases hB h0 with hh | hh
  · exact hh
  · omega

/-- Claim C6 (amended), witnessed on a completed run with one failed
goroutine. -/
theorem c6_witness :
    run [Configurer.withCancel]
        [Ev.go (some 2), Ev.fail 0, Ev.invoke 0, Ev.append 0, Ev.finish 0] =
        some ⟨true, false, 0, true, 1, [2], [Phase.done true]⟩ ∧
      pending ⟨true, false, 0, true, 1, [2], [Phase.done true]⟩ = 0 ∧
      (((GState.mk true false 0 true 1 [2] [Phase.done true]).err ≠ [] ↔
          0 < (GState.mk true false 0 true 1 [2]
            [Phase.done true]).tasks.countP Phase.isFailed) ∧
        (GState.mk true false 0 true 1 [2] [Phase.done true]).err.length ≤
          (GState.mk true false 0 true 1 [2]
            [Phase.done true]).tasks.countP Phase.isFailed) :=
  ⟨rfl, by decide,
    c6_amended [Configurer.withCancel]
      [Ev.go (some 2), Ev.fail 0, Ev.invoke 0, Ev.append 0, Ev.finish 0]
      ⟨true, false, 0, true, 1, [2], [Phase.done true]⟩ rfl (by decide)⟩

/-! ### Claim C7 -/

/-- Claim C7 as stated is false: it describes a double-checked pattern —
re-checking the cancelled flag under the error lock before the one-time
action.  The code has no such re-check: `g.cancel()` is invoked before
`errLock` is acquired (errgroup.go lines 119-124), so two goroutines that
both pass the fast check each invoke the cancel capability: after their
two `invoke` steps (and no `Wait`), the capability has been invoked
twice. -/
theorem c7_counterexample :
    (run [Configurer.withCancel]
        [Ev.go (some 1), Ev.go (some 2), Ev.fail 0, Ev.fail 1, Ev.invoke 0,
          Ev.invoke 1]).map (fun s => s.cancelCalls) = some 2 := rfl

/-- Claim C7 (amended): there is no re-check under the lock and the cancel
invocation precedes the locked append, so the one-time action can run more
than once; what does hold is the claim's observability consequence — the
only store to `cancelled` is inside the cancel capability itself, so no
thread can observe `cancelled = true` before the capability has been
invoked at least once. -/
theorem c7_amended (cfgs : List Configurer) (evs : List Ev) (s : GState)
    (h : run cfgs evs = some s) (hc : s.cancelled = true) :
    1 ≤ s.cancelCalls := by
  refine run_preserves (fun x => x.cancelled = true → 1 ≤ x.cancelCalls)
    (fun _ _ _ hP hs => step_cancelled_calls hs hP) h ?_ hc
  intro h0
  rw [(New_dyn cfgs).1] at h0
  cases h0

/-- Claim C7 (amended), witnessed on a group cancelled by `Wait`. -/
theorem c7_witness :
    run [Configurer.withCancel] [Ev.wait] =
        some ⟨true, false, 0, true, 1, [], []⟩ ∧
      (GState.mk true false 0 true 1 [] []).cancelled = true ∧
      1 ≤ (GState.mk true false 0 true 1 [] []).cancelCalls :=
  ⟨rfl, by decide,
    c7_amended [Configurer.withCancel] [Ev.wait]
      ⟨true, false, 0, true, 1, [], []⟩ rfl rfl⟩

/-! ### Claim C8 -/

/-- Claim C8: `Wait` is idempotent.  Once no goroutine is pending, `Wait`
succeeds and returns the aggregate, and calling it again succeeds and
returns the very same aggregate — re-running `wg.Wait()` returns at once,
the second `g.cancel()` invocation only re-stores `true`, and `g.err` is
untouched (no failure is counted twice). -/
theorem c8_wait_idempotent (cfgs : List Configurer) (evs : List Ev)
    (s : GState) (_h : run cfgs evs = some s) (hp : pending s = 0) :
    ∃ s1 r1 s2 r2, Wait s = some (s1, r1) ∧ Wait s1 = some (s2, r2) ∧
      r1 = s.err ∧ r2 = s.err := by
  by_cases hc : s.hasCancel = true
  · refine ⟨fireCancel s, s.err, fireCancel (fireCancel s), s.err, ?_, ?_, rfl, rfl⟩
    · simp [Wait, hp, hc]
    · have hp1 : pending (fireCancel s) = 0 := by simpa [pending] using hp
      simp [Wait, hp1, hc]
  · refine ⟨s, s.err, s, s.err, ?_, ?_, rfl, rfl⟩ <;>
      simp_all [Wait, hp]

/-- Claim C8, witnessed on a completed run with one failed goroutine. -/
theorem c8_witness :
    run [] [Ev.go (some 3), Ev.fail 0, Ev.append 0, Ev.finish 0] =
        some ⟨false, false, 0, false, 0, [3], [Phase.done true]⟩ ∧
      pending ⟨false, false, 0, false, 0, [3], [Phase.done true]⟩ = 0 ∧
      (∃ s1 r1 s2 r2,
        Wait ⟨false, false, 0, false, 0, [3], [Phase.done true]⟩ =
            some (s1, r1) ∧
          Wait s1 = some (s2, r2) ∧ r1 = [3] ∧ r2 = [3]) :=
  ⟨rfl, by decide,
    c8_wait_idempotent [] [Ev.go (some 3), Ev.fail 0, Ev.append 0, Ev.finish 0]
      ⟨false, false, 0, false, 0, [3], [Phase.done true]⟩ rfl (by decide)⟩

/-! ### Claim C9 -/

/-- Claim C9: on a group built with a cancellation configurer, any `Wait`
call — even one that saw no failure at all — invokes the bound cancel
function, which stores `true` into `g.cancelled`; the flag is never reset,
so every later `Go` or `TryGo` call returns a `CancelError` without
launching. -/
theorem c9_admission_after_wait (cfgs : List Configurer) (evs evs' : List Ev)
    (s : GState) (r : TaskRet) (hc : Configurer.withCancel ∈ cfgs)
    (h : run cfgs (evs ++ Ev.wait :: evs') = some s) :
    s.cancelled = true ∧ Go s r = some (s, AdmitRes.cancelErr) ∧
      TryGo s r = (s, AdmitRes.cancelErr) := by
  obtain ⟨sm, sw, h1, h2, h3⟩ := run_split_wait h
  have hmc : sm.hasCancel = true := by
    rw [(foldl_config h1).1]; exact New_hasCancel_of_mem hc
  rcases wait_inv h2 with ⟨_, ⟨_, rfl⟩ | ⟨hfc, _⟩⟩
  · have hcanc : s.cancelled = true := foldl_cancelled_mono h3 rfl
    exact ⟨hcanc, by simp [Go, hcanc], by simp [TryGo, hcanc]⟩
  · rw [hmc] at hfc; cases hfc

/-- Claim C9, witnessed: a `Wait` on an empty cancel-bound group, then a
`TryGo` that is rejected. -/
theorem c9_witness :
    Configurer.withCancel ∈ [Configurer.withCancel] ∧
      run [Configurer.withCancel] ([] ++ Ev.wait :: []) =
        some ⟨true, false, 0, true, 1, [], []⟩ ∧
      ((GState.mk true false 0 true 1 [] []).cancelled = true ∧
        Go ⟨true, false, 0, true, 1, [], []⟩ (some 1) =
          some (⟨true, false, 0, true, 1, [], []⟩, AdmitRes.cancelErr) ∧
        TryGo ⟨true, false, 0, true, 1, [], []⟩ (some 1) =
          (⟨true, false, 0, true, 1, [], []⟩, AdmitRes.cancelErr)) :=
  ⟨by decide, rfl,
    c9_admission_after_wait [Configurer.withCancel] [] []
      ⟨true, false, 0, true, 1, [], []⟩ (some 1) (by decide) rfl⟩

/-! ### Claim C10 -/

/-- Claim C10: `WithLimit 0` is accepted (the limit is a `uint`) and
allocates a zero-capacity semaphore; a non-blocking send on it always hits
the `select` default, so on a non-cancelled group every `TryGo` returns
`LimitError{limit: 0}` and never launches the task. -/
theorem c10_tryGo_limit_zero (evs : List Ev) (s : GState) (r : TaskRet)
    (h : run [Configurer.withLimit 0] evs = some s)
    (hc : s.cancelled = false) :
    TryGo s r = (s, AdmitRes.limitErr 0) := by
  obtain ⟨_, hsem, hlim⟩ := foldl_config h
  have hsem' : s.hasSem = true := by rw [hsem]; rfl
  have hlim' : s.limit = 0 := by rw [hlim]; rfl
  have hfull : full s = true := by rw [full, hsem', hlim']; simp
  simp [TryGo, hc, hfull, hlim']

/-- Claim C10, witnessed on the freshly configured group. -/
theorem c10_witness :
    run [Configurer.withLimit 0] [] =
        some ⟨false, true, 0, false, 0, [], []⟩ ∧
      (GState.mk false true 0 false 0 [] []).cancelled = false ∧
      TryGo ⟨false, true, 0, false, 0, [], []⟩ (some 3) =
        (⟨false, true, 0, false, 0, [], []⟩, AdmitRes.limitErr 0) :=
  ⟨rfl, by decide,
    c10_tryGo_limit_zero [] ⟨false, true, 0, false, 0, [], []⟩ (some 3)
      rfl rfl⟩

end Errgroup
